import Mathlib

/-!
# TMVA::PDF (tmva/src/PDF.cxx): spline-smoothed probability density from a histogram

A shallow embedding of `PDF.cxx`.

* `Double_t` values are modelled by exact rationals `ℚ` (no rounding, no NaN, no infinities;
  a division by zero yields `0` as in Lean's `ℚ`). The statements below are statements about
  this exact arithmetic; where the source divides by zero (`dx = 0` in `GetVal`) the value of
  the model does not describe the NaN or infinity the source computes.
* `Float_t` values (the empty-bins test of `CheckHist`) are modelled by rationals rounded to
  IEEE-754 binary32 (24-bit significand, round to nearest, ties to even).
* `Int_t` values are modelled by `ℤ`.
* Pointer members are `Option`s; dereferencing a null pointer is the fault `Fault.nullDeref`,
  `exit(1)` is the fault `Fault.exit 1 _`.
* `cout` is modelled by the message list `PDF.out` (the message printed right before an
  `exit` is carried by the fault).
* The histogram class `TH1`/`TH1D`, the graph adapter `TGraph` and the spline fitters are not
  part of `PDF.cxx`; the few operations the file uses are modelled below, the numeric routines
  (`Smooth`, the four spline fitters) are parameters collected in `Externals`.
* Names and titles of histograms and splines are cosmetic and are not modelled.
* Bin centres and `FindBin` are computed exactly; in double precision a centre that falls on
  or next to a bin edge of the source histogram can be rounded into the neighbouring bin, and
  the centres of adjacent bins of a very narrow axis can coincide.
-/

set_option linter.dupNamespace false

namespace TMVA

/-! ## Global constants -/

/-- The constant `DEBUG_PDF`. -/
def DEBUG_PDF : Bool := false

/-- The constant `PDF_epsilon_ = 1.0e-02`. -/
def PDF_epsilon_ : ℚ := 1 / 100

/-- The constant `NBIN_PdfHist_ = 10000`. -/
def NBIN_PdfHist_ : ℤ := 10000

/-! ## Loops -/

/-- The iterations `i, i + 1, ..., i + remaining - 1` of a loop, in this order. -/
@[irreducible]
def forLoopFrom {σ : Type} (body : ℕ → σ → σ) (remaining i : ℕ) (s : σ) : σ :=
  match remaining with
  | 0 => s
  | r + 1 => forLoopFrom body r (i + 1) (body i s)

/-- The loop `for (i = 0; i < n; i++) s = body i s`. -/
def forLoop {σ : Type} (n : ℕ) (body : ℕ → σ → σ) (s : σ) : σ :=
  forLoopFrom body n 0 s

/-- The iterations `i, i + 1, ..., i + remaining - 1` of a loop whose body can fault; the first
fault ends the loop. -/
@[irreducible]
def forLoopFromM {ε σ : Type} (body : ℕ → σ → Except ε σ) (remaining i : ℕ) (s : σ) :
    Except ε σ :=
  match remaining with
  | 0 => .ok s
  | r + 1 =>
    match body i s with
    | .error e => .error e
    | .ok s1 => forLoopFromM body r (i + 1) s1

/-- The loop `for (i = 0; i < n; i++) s = body i s` with a body that can fault. -/
def forLoopM {ε σ : Type} (n : ℕ) (body : ℕ → σ → Except ε σ) (s : σ) : Except ε σ :=
  forLoopFromM body n 0 s

/-! ## Single precision -/

/-- Rounding to the nearest integer, ties to the even one. -/
def roundHalfEven (q : ℚ) : ℤ :=
  let f := ⌊q⌋
  let r := q - (f : ℚ)
  if r < 1 / 2 then f else if 1 / 2 < r then f + 1 else if f % 2 = 0 then f else f + 1

/-- The conversion `(Float_t) q`, and the rounding of the result of a `Float_t` operation whose
exact value is `q`: the nearest IEEE-754 binary32 number, ties to the even significand. With
`2^e <= |q| < 2^(e+1)` the binary32 numbers around `q` are the multiples of `2^(e-23)`.
Overflow and subnormal numbers are not modelled (the operands of `CheckHist` are `Int_t`
values and their quotient). -/
def toFloat_t (q : ℚ) : ℚ :=
  if q = 0 then 0
  else
    let e := Int.log 2 |q|
    let ulp : ℚ := 2 ^ (e - 23)
    (if q < 0 then -1 else 1) * (roundHalfEven (|q| / ulp) : ℚ) * ulp

/-! ## The histogram collaborator -/

/-- Modelled from the spec: the histogram class `TH1` (declared outside `PDF.cxx`), reduced to
what the spec's section 6 lists: a bin count, the axis range `[fXmin, fXmax]` cut into bins of
equal width, and the array of cell contents. Cell `0` is the underflow cell, cells `1..fNbins`
are the bins, cell `fNbins + 1` is the overflow cell; a cell the array does not hold reads
as `0`. -/
structure TH1 where
  /-- Number of bins of the axis. -/
  fNbins : ℤ
  /-- Lower edge of the axis. -/
  fXmin : ℚ
  /-- Upper edge of the axis. -/
  fXmax : ℚ
  /-- Content of each cell. -/
  fArray : Array ℚ

namespace TH1

/-- Modelled from the spec: the constructor `TH1D("", "", nbins, xmin, xmax)` of the dense
lookup histogram: `nbins` bins over `[xmin, xmax]`, all `nbins + 2` cells zero. -/
def TH1D (nbins : ℤ) (xmin xmax : ℚ) : TH1 :=
  { fNbins := nbins, fXmin := xmin, fXmax := xmax, fArray := mkArray (nbins + 2).toNat 0 }

/-- Modelled from the spec: `Clone()`, an independent copy. -/
def Clone (h : TH1) : TH1 := h

/-- Modelled from the spec: `GetNbinsX()`. -/
def GetNbinsX (h : TH1) : ℤ := h.fNbins

/-- Modelled from the spec: `GetXaxis()->GetXmin()`. -/
def GetXmin (h : TH1) : ℚ := h.fXmin

/-- Modelled from the spec: `GetXaxis()->GetXmax()`. -/
def GetXmax (h : TH1) : ℚ := h.fXmax

/-- Conversion of a non-integral value to `Int_t`: truncation towards zero. -/
def truncToInt (q : ℚ) : ℤ := if 0 ≤ q then ⌊q⌋ else ⌈q⌉

/-- Modelled from the spec: `FindBin(x)`, the bin containing `x`: `0` (underflow) below the
axis, `fNbins + 1` (overflow) at or above the upper edge, else
`1 + int(fNbins * (x - fXmin) / (fXmax - fXmin))`. -/
def FindBin (h : TH1) (x : ℚ) : ℤ :=
  if x < h.fXmin then 0
  else if ¬ (x < h.fXmax) then h.fNbins + 1
  else 1 + truncToInt ((h.fNbins : ℚ) * (x - h.fXmin) / (h.fXmax - h.fXmin))

/-- Modelled from the spec: `GetBinCenter(bin)`, the centre of a bin of the equal-width axis:
`fXmin + (bin - 1) * width + 0.5 * width`, for every integer `bin`. -/
def GetBinCenter (h : TH1) (bin : ℤ) : ℚ :=
  let binwidth := (h.fXmax - h.fXmin) / (h.fNbins : ℚ)
  h.fXmin + ((bin : ℚ) - 1) * binwidth + (1 / 2) * binwidth

/-- The cell addressed by a bin number: numbers below `0` address the underflow cell, numbers
above `fNbins + 1` the overflow cell. -/
def cell (h : TH1) (bin : ℤ) : ℤ :=
  if bin < 0 then 0 else if bin ≥ h.fNbins + 2 then h.fNbins + 1 else bin

/-- Modelled from the spec: `GetBinContent(bin)`. -/
def GetBinContent (h : TH1) (bin : ℤ) : ℚ := h.fArray.getD (h.cell bin).toNat 0

/-- Modelled from the spec: `SetBinContent(bin, v)`; a bin number outside the cells is
ignored. -/
def SetBinContent (h : TH1) (bin : ℤ) (v : ℚ) : TH1 :=
  if bin < 0 then h
  else if bin ≥ h.fNbins + 2 then h
  else { h with fArray := h.fArray.setD bin.toNat v }

/-- Modelled from the spec: `Scale(c)`, every cell content multiplied by `c`. -/
def Scale (h : TH1) (c : ℚ) : TH1 :=
  { h with fArray := h.fArray.map (fun v => c * v) }

end TH1

/-- Modelled from the spec: the graph adapter `TGraph`, the control points handed to the spline
fitter. -/
structure TGraph where
  /-- The control points `(x, y)`. -/
  points : List (ℚ × ℚ)

/-- Modelled from the spec: the constructor `TGraph(hist)`: one control point
`(bin-centre, bin-content)` per bin `1..nbins` of the histogram. -/
def TGraph.TGraph (hist : TH1) : TGraph :=
  { points := (List.range hist.GetNbinsX.toNat).map
      (fun i => (hist.GetBinCenter ((i : ℤ) + 1), hist.GetBinContent ((i : ℤ) + 1))) }

/-- The external numeric routines `PDF.cxx` delegates to: the histogram smoothing
`TH1::Smooth(ntimes)`, which rewrites the cell contents of a histogram (and leaves its axis
alone), and the four spline fitters, each turning a graph into its `Eval` function. -/
structure Externals where
  /-- The contents after `Smooth(ntimes)`, from `ntimes`, the bin count and the contents. -/
  smooth : ℤ → ℤ → Array ℚ → Array ℚ
  /-- The fitter `TMVA::TSpline1`. -/
  TSpline1 : TGraph → ℚ → ℚ
  /-- The fitter `TMVA::TSpline2`. -/
  TSpline2 : TGraph → ℚ → ℚ
  /-- The fitter `TSpline3`. -/
  TSpline3 : TGraph → ℚ → ℚ
  /-- The fitter `TSpline5`. -/
  TSpline5 : TGraph → ℚ → ℚ

/-- The call `h->Smooth(ntimes)`. -/
def TH1.Smooth (ext : Externals) (h : TH1) (ntimes : ℤ) : TH1 :=
  { h with fArray := ext.smooth ntimes h.fNbins h.fArray }

/-! ## The class `TMVA::PDF` -/

/-- The enumeration `TMVA::PDF::SmoothMethod` (declared in the header); `other v` stands for
a value `v` of the underlying integer type that is none of the four enumerators. -/
inductive SmoothMethod where
  | kSpline1
  | kSpline2
  | kSpline3
  | kSpline5
  | other (v : ℤ)

/-- The lines written to `cout`. -/
inductive Msg where
  /-- The constructor's "ERROR!!! Called without valid histogram pointer!". -/
  | ctorNoHist
  /-- The "CheckHist: ERROR!!! Called without valid histogram pointer!" line. -/
  | checkHistNoHist
  /-- The "WARNING More than 50% (..%) of the bins ... are empty!" line with its percentage. -/
  | emptyBins (percent : ℚ)
  /-- The "X_min=.. mean=.. X_max= .." line (the mean is not modelled). -/
  | range (xmin xmax : ℚ)
  /-- The "Warning no valid interpolation method given! Use Spline3" line. -/
  | noValidMethod
  /-- The debug line ".. < x < .. in .. bins". -/
  | debug (xmin xmax : ℚ) (nbins : ℤ)

/-- The ways execution can stop abnormally. -/
inductive Fault where
  /-- The call `exit(code)`, after printing `msg`. -/
  | exit (code : ℤ) (msg : Msg)
  /-- A null pointer was dereferenced. -/
  | nullDeref

/-- The data members of `TMVA::PDF`, and the output written so far. -/
structure PDF where
  fNsmooth : ℤ
  fSpline : Option (ℚ → ℚ)
  fPDFHist : Option TH1
  fHist : Option TH1
  fGraph : Option TGraph
  fIntegral : ℚ
  fXmin : ℚ
  fXmax : ℚ
  fNbinsPDFHist : ℤ
  out : List Msg

namespace PDF

/-- The method `GetVal(x)`: the value `PDF(x)`, with the object after the call. The arithmetic
is exact; when `dx = 0` the source divides by zero and the value below does not describe its
result. -/
def GetVal (p : PDF) (x : ℚ) : Except Fault (ℚ × PDF) :=
  match p.fPDFHist with
  | none => .error .nullDeref
  | some h =>
    let bin := h.FindBin x
    let bin := if bin < 1 then 1 else if bin > p.fNbinsPDFHist then p.fNbinsPDFHist else bin
    let nextbin := bin
    let nextbin :=
      if (x > h.GetBinCenter bin ∧ bin ≠ p.fNbinsPDFHist) ∨ bin = 1 then nextbin + 1
      else nextbin - 1
    let p := if p.fIntegral ≤ 0 then { p with fIntegral := 1 } else p
    let dx := h.GetBinCenter bin - h.GetBinCenter nextbin
    let dy := h.GetBinContent bin - h.GetBinContent nextbin
    let retval := h.GetBinContent bin + (x - h.GetBinCenter bin) * dy / dx
    .ok (max retval PDF_epsilon_, p)

/-- The method `GetIntegral(xmin, xmax)`: the PDF integral within the given range, with the
object after the call. The loop state is the pair of `integral` and the object. -/
def GetIntegral (p : PDF) (xmin xmax : ℚ) : Except Fault (ℚ × PDF) :=
  let integral : ℚ := 0
  let nsteps : ℤ := 10000
  let intBin := (xmax - xmin) / (nsteps : ℚ)
  match forLoopM nsteps.toNat (fun bini s =>
      let x := ((bini : ℚ) + 1 / 2) * intBin + xmin
      match s.2.GetVal x with
      | .error e => .error e
      | .ok r => .ok (s.1 + r.1, r.2)) (integral, p) with
  | .error e => .error e
  | .ok s => .ok (s.1 * intBin, s.2)

/-- The method `Integral()`: "computes normalisation". -/
def Integral (p : PDF) : Except Fault (ℚ × PDF) :=
  p.GetIntegral p.fXmin p.fXmax

/-- The method `CheckHist()`. The test `((Float_t)emptyBins/(Float_t)nbins) > 0.5` and the
percentage printed are computed in single precision. -/
def CheckHist (p : PDF) : Except Fault PDF :=
  match p.fHist with
  | none => .error (.exit 1 .checkHistNoHist)
  | some h =>
    let p := { p with fXmin := h.GetXmin }
    let p := { p with fXmax := h.GetXmax }
    let nbins := h.GetNbinsX
    let emptyBins : ℤ := 0
    let emptyBins := forLoop nbins.toNat (fun k e =>
      let bin : ℤ := (k : ℤ) + 1
      if h.GetBinContent bin = 0 then e + 1 else e) emptyBins
    let p :=
      if toFloat_t (toFloat_t (emptyBins : ℚ) / toFloat_t (nbins : ℚ)) > 1 / 2 then
        { p with out := p.out ++
            [Msg.emptyBins
              (toFloat_t (toFloat_t (toFloat_t (emptyBins : ℚ) / toFloat_t (nbins : ℚ)) * 100)),
             Msg.range p.fXmin p.fXmax] }
      else p
    let p :=
      if DEBUG_PDF then { p with out := p.out ++ [Msg.debug p.fXmin p.fXmax nbins] } else p
    .ok p

/-- The value `FillSplineToHist` stores for a bin centre `x`: the spline value `y`, replaced by
the content of `fHist` at the bin containing `x` when `y <= PDF_epsilon_`, then floored. -/
def fillValue (spline : ℚ → ℚ) (hist : TH1) (x : ℚ) : ℚ :=
  let y := spline x
  let y := if y ≤ PDF_epsilon_ then hist.GetBinContent (hist.FindBin x) else y
  max y PDF_epsilon_

/-- The method `FillSplineToHist()`: creates the high-binned reference histogram. -/
def FillSplineToHist (p : PDF) : Except Fault PDF :=
  match p.fHist, p.fSpline with
  | some hist, some spline =>
    let t := TH1.TH1D p.fNbinsPDFHist p.fXmin p.fXmax
    let t := forLoop p.fNbinsPDFHist.toNat (fun k t =>
      let bin : ℤ := (k : ℤ) + 1
      let x := t.GetBinCenter bin
      t.SetBinContent bin (fillValue spline hist x)) t
    .ok { p with fPDFHist := some t }
  | _, _ => .error .nullDeref

/-- The member initialisers of the constructor; `fXmin`, `fXmax` and `fNbinsPDFHist`, which the
constructor leaves uninitialised at this point, start at `0`. -/
def init (nsmooth : ℤ) : PDF :=
  { fNsmooth := nsmooth, fSpline := none, fPDFHist := none, fHist := none, fGraph := none,
    fIntegral := 1, fXmin := 0, fXmax := 0, fNbinsPDFHist := 0, out := [] }

/-- The spline selected by the `switch (method)` of the constructor, with the warning it
prints. -/
def selectSpline (ext : Externals) (method : SmoothMethod) (g : TGraph) :
    (ℚ → ℚ) × List Msg :=
  match method with
  | .kSpline1 => (ext.TSpline1 g, [])
  | .kSpline2 => (ext.TSpline2 g, [])
  | .kSpline3 => (ext.TSpline3 g, [])
  | .kSpline5 => (ext.TSpline5 g, [])
  | .other _ => (ext.TSpline3 g, [Msg.noValidMethod])

/-- The statement `if (fNsmooth > 0) fHist->Smooth( fNsmooth )` of the constructor. -/
def smoothStep (ext : Externals) (p : PDF) : Except Fault PDF :=
  if p.fNsmooth > 0 then
    match p.fHist with
    | none => .error .nullDeref
    | some h => .ok { p with fHist := some (h.Smooth ext p.fNsmooth) }
  else .ok p

/-- The statement `fPDFHist->Scale( 1.0/fIntegral )` of the constructor. -/
def scaleStep (p : PDF) : Except Fault PDF :=
  match p.fPDFHist with
  | none => .error .nullDeref
  | some t => .ok { p with fPDFHist := some (t.Scale (1 / p.fIntegral)) }

/-- The constructor `PDF(hist, method, nsmooth)`; `hist = none` is the null pointer. The
value `Integral()` returns is not used. -/
def PDF (ext : Externals) (hist : Option TH1) (method : SmoothMethod) (nsmooth : ℤ) :
    Except Fault PDF :=
  match hist with
  | none => .error (.exit 1 .ctorNoHist)
  | some hist => do
    let p := init nsmooth
    let p := { p with fNbinsPDFHist := NBIN_PdfHist_ }
    let p := { p with fHist := some hist.Clone }
    let p ← p.CheckHist
    let p ← p.smoothStep ext
    let g := TGraph.TGraph hist
    let p := { p with fGraph := some g }
    let sel := selectSpline ext method g
    let p := { p with fSpline := some sel.1, out := p.out ++ sel.2 }
    let p ← p.FillSplineToHist
    let r ← p.Integral
    let p := r.2
    p.scaleStep

end PDF

/-! ## Derived descriptions used to state the properties -/

/-- The value a call returned, `none` when the call faulted. -/
def returned {α σ : Type} (r : Except Fault (α × σ)) : Option α :=
  match r with
  | .ok v => some v.1
  | .error _ => none

namespace PDF

/-- The bin `GetVal` works with: `FindBin(x)` clamped by the two tests on `bin`. -/
def locBin (t : TH1) (n : ℤ) (x : ℚ) : ℤ :=
  let bin := t.FindBin x
  if bin < 1 then 1 else if bin > n then n else bin

/-- The neighbour bin `GetVal` selects. -/
def nextBin (t : TH1) (n : ℤ) (x : ℚ) : ℤ :=
  let bin := locBin t n x
  if (x > t.GetBinCenter bin ∧ bin ≠ n) ∨ bin = 1 then bin + 1 else bin - 1

/-- The local `retval` of `GetVal`, before the floor. -/
def retval (t : TH1) (n : ℤ) (x : ℚ) : ℚ :=
  let bin := locBin t n x
  let nextbin := nextBin t n x
  let dx := t.GetBinCenter bin - t.GetBinCenter nextbin
  let dy := t.GetBinContent bin - t.GetBinContent nextbin
  t.GetBinContent bin + (x - t.GetBinCenter bin) * dy / dx

/-- The effect of the statement `if (fIntegral <= 0.0) fIntegral = 1.0`. -/
def sanitized (p : TMVA.PDF) : TMVA.PDF :=
  if p.fIntegral ≤ 0 then { p with fIntegral := 1 } else p

/-- The histogram the loop of `FillSplineToHist` leaves behind. -/
def denseTable (n : ℤ) (xmin xmax : ℚ) (spline : ℚ → ℚ) (hist : TH1) : TH1 :=
  forLoop n.toNat (fun k t =>
    let bin : ℤ := (k : ℤ) + 1
    let x := t.GetBinCenter bin
    t.SetBinContent bin (fillValue spline hist x)) (TH1.TH1D n xmin xmax)

/-- The counter `emptyBins` at the end of the loop of `CheckHist`. -/
def emptyBins (h : TH1) : ℤ :=
  forLoop h.GetNbinsX.toNat (fun k e =>
    let bin : ℤ := (k : ℤ) + 1
    if h.GetBinContent bin = 0 then e + 1 else e) 0

/-- The lines `CheckHist` prints for the histogram `h`. -/
def checkHistOut (h : TH1) : List Msg :=
  if toFloat_t (toFloat_t (emptyBins h : ℚ) / toFloat_t (h.GetNbinsX : ℚ)) > 1 / 2 then
    [Msg.emptyBins
      (toFloat_t (toFloat_t (toFloat_t (emptyBins h : ℚ) / toFloat_t (h.GetNbinsX : ℚ)) * 100)),
     Msg.range h.fXmin h.fXmax]
  else []

/-- The histogram `fHist` holds once the constructor has run its smoothing step. -/
def ownedHist (ext : Externals) (hist : TH1) (nsmooth : ℤ) : TH1 :=
  if nsmooth > 0 then hist.Clone.Smooth ext nsmooth else hist.Clone

end PDF

/-- The line through the centres of the bins `i` and `j` of a table, evaluated at `x`: the
expression `GetVal` computes for `bin = i`, `nextbin = j`. -/
def chord (t : TH1) (i j : ℤ) (x : ℚ) : ℚ :=
  t.GetBinContent i + (x - t.GetBinCenter i) * (t.GetBinContent i - t.GetBinContent j) /
    (t.GetBinCenter i - t.GetBinCenter j)

/-! ## Concrete external routines and inputs for the examples -/

/-- Modelled from the spec: the `Spline1` variant, "piecewise-linear interpolation through
control points" (the fitter `TMVA::TSpline1` is not part of `PDF.cxx`). The control points are
sorted by `x`; the segment is the one starting at the last control point not right of `x`,
and left of the first (right of the last) control point the outermost segment is continued. -/
def linearEval (g : TGraph) (x : ℚ) : ℚ :=
  let n : ℤ := g.points.length
  let X : ℤ → ℚ := fun i => (g.points.getD i.toNat (0, 0)).1
  let Y : ℤ → ℚ := fun i => (g.points.getD i.toNat (0, 0)).2
  let ibin : ℤ := ((g.points.filter (fun pt => pt.1 ≤ x)).length : ℤ) - 1
  let ibin := if ibin < 0 then 0 else ibin
  let ibin := if ibin ≥ n then n - 1 else ibin
  let nextbin := if (x > X ibin ∧ ibin ≠ n - 1) ∨ ibin = 0 then ibin + 1 else ibin - 1
  Y ibin + (x - X ibin) * (Y ibin - Y nextbin) / (X ibin - X nextbin)

/-- Modelled from the spec: a smoothing routine of the kind the spec describes ("kernel-style
local averaging"; `TH1::Smooth` is not part of `PDF.cxx`): `ntimes` passes, each replacing
the content of every bin `1..nbins` by the mean of the bin and its two neighbours, the first
and the last bin standing in for their missing neighbour. -/
def meanSmooth (ntimes nbins : ℤ) (c : Array ℚ) : Array ℚ :=
  Nat.iterate (fun c => (Array.range c.size).map (fun (i : ℕ) =>
    if 1 ≤ i ∧ (i : ℤ) ≤ nbins then
      (c.getD (max 1 (i - 1)) 0 + c.getD i 0 + c.getD (min nbins.toNat (i + 1)) 0) / 3
    else c.getD i 0)) ntimes.toNat c

/-- External routines for the examples: `meanSmooth` as smoothing and the piecewise-linear
interpolant for every fitter (the examples select `kSpline1`, the variant it models). -/
def linearExt : Externals :=
  { smooth := meanSmooth, TSpline1 := linearEval, TSpline2 := linearEval,
    TSpline3 := linearEval, TSpline5 := linearEval }

/-- A histogram with two bins over `[0, 1]`, both holding `2`. -/
def flatHist : TH1 := { fNbins := 2, fXmin := 0, fXmax := 1, fArray := #[0, 2, 2, 0] }

/-- A histogram with three bins over `[0, 3]`, holding `0`, `3` and `0`. -/
def peakHist : TH1 := { fNbins := 3, fXmin := 0, fXmax := 3, fArray := #[0, 0, 3, 0, 0] }

/-- A dense table with two bins over `[0, 1]`, holding `1` and `3`. -/
def smallTable : TH1 := { fNbins := 2, fXmin := 0, fXmax := 1, fArray := #[0, 1, 3, 0] }

/-- An object whose dense table is `smallTable`. -/
def smallPDF : PDF :=
  { fNsmooth := 0, fSpline := none, fPDFHist := some smallTable, fHist := none, fGraph := none,
    fIntegral := 1, fXmin := 0, fXmax := 1, fNbinsPDFHist := 2, out := [] }

/-- A histogram with `16777219` bins over `[0, 1]`: the bins `1..8388610` hold `0`, the bins
`8388611..16777219` hold `1`; the underflow and the overflow cell hold `0`. -/
def bigHist : TH1 :=
  { fNbins := 16777219, fXmin := 0, fXmax := 1,
    fArray := mkArray 8388611 0 ++ mkArray 8388609 1 ++ #[0] }

/-- An object that owns `bigHist`, as the constructor has it when it calls `CheckHist`. -/
def bigPDF : PDF :=
  { fNsmooth := 0, fSpline := none, fPDFHist := none, fHist := some bigHist, fGraph := none,
    fIntegral := 1, fXmin := 0, fXmax := 0, fNbinsPDFHist := NBIN_PdfHist_, out := [] }

/-- An object that owns `flatHist` and the spline `x ↦ x`, ready for `FillSplineToHist` with a
two-bin table over `[0, 1]`. -/
def fillPDF : PDF :=
  { fNsmooth := 0, fSpline := some (fun x => x), fPDFHist := none, fHist := some flatHist,
    fGraph := none, fIntegral := 1, fXmin := 0, fXmax := 1, fNbinsPDFHist := 2, out := [] }

/-- The number of bins among `1..nbins` of a histogram whose content is exactly `0`. -/
def zeroBins (h : TH1) : ℕ :=
  ((List.range h.GetNbinsX.toNat).filter
    (fun (k : ℕ) => decide (h.GetBinContent ((k : ℤ) + 1) = 0))).length

/-! ## Loops -/

theorem forLoopFrom_succ {σ : Type} (body : ℕ → σ → σ) (r i : ℕ) (s : σ) :
    forLoopFrom body (r + 1) i s = body (i + r) (forLoopFrom body r i s) := by
  induction r generalizing i s with
  | zero =>
    rw [forLoopFrom, forLoopFrom, forLoopFrom]
    rfl
  | succ r ih =>
    conv_lhs => rw [forLoopFrom]
    conv_rhs => rw [forLoopFrom]
    rw [ih]
    congr 1
    omega

theorem forLoop_zero {σ : Type} (body : ℕ → σ → σ) (s : σ) : forLoop 0 body s = s := by
  unfold forLoop
  rw [forLoopFrom]

theorem forLoop_succ {σ : Type} (n : ℕ) (body : ℕ → σ → σ) (s : σ) :
    forLoop (n + 1) body s = body n (forLoop n body s) := by
  unfold forLoop
  rw [forLoopFrom_succ]
  simp

theorem forLoopFromM_succ {ε σ : Type} (body : ℕ → σ → Except ε σ) (r i : ℕ) (s : σ) :
    forLoopFromM body (r + 1) i s =
      match forLoopFromM body r i s with
      | .error e => .error e
      | .ok s1 => body (i + r) s1 := by
  induction r generalizing i s with
  | zero =>
    rw [forLoopFromM, forLoopFromM]
    simp only [add_zero]
    cases body i s with
    | error e => rfl
    | ok s1 =>
      simp only []
      rw [forLoopFromM]
  | succ r ih =>
    conv_lhs => rw [forLoopFromM]
    conv_rhs => rw [forLoopFromM]
    cases hb : body i s with
    | error e => rfl
    | ok s1 =>
      simp only []
      rw [ih]
      have : i + 1 + r = i + (r + 1) := by omega
      rw [this]

theorem forLoopM_zero {ε σ : Type} (body : ℕ → σ → Except ε σ) (s : σ) :
    forLoopM 0 body s = .ok s := by
  unfold forLoopM
  rw [forLoopFromM]

theorem forLoopM_succ {ε σ : Type} (n : ℕ) (body : ℕ → σ → Except ε σ) (s : σ) :
    forLoopM (n + 1) body s =
      match forLoopM n body s with
      | .error e => .error e
      | .ok s1 => body n s1 := by
  unfold forLoopM
  rw [forLoopFromM_succ]
  simp

/-! ## Point query and integration -/

namespace PDF

theorem sanitized_fPDFHist (p : TMVA.PDF) : p.sanitized.fPDFHist = p.fPDFHist := by
  unfold sanitized
  split <;> rfl

theorem sanitized_fNbinsPDFHist (p : TMVA.PDF) :
    p.sanitized.fNbinsPDFHist = p.fNbinsPDFHist := by
  unfold sanitized
  split <;> rfl

theorem sanitized_of_pos (p : TMVA.PDF) (h : 0 < p.fIntegral) : p.sanitized = p := by
  unfold sanitized
  rw [if_neg (not_le.mpr h)]

theorem sanitized_idem (p : TMVA.PDF) : p.sanitized.sanitized = p.sanitized := by
  by_cases h : p.fIntegral ≤ 0
  · have h1 : p.sanitized = { p with fIntegral := 1 } := by
      unfold sanitized
      rw [if_pos h]
    rw [h1]
    exact sanitized_of_pos _ (by norm_num)
  · have h1 : p.sanitized = p := sanitized_of_pos p (not_le.mp h)
    rw [h1, h1]

/-- The result of `GetVal` on an object that holds a dense table. -/
theorem GetVal_eq (p : TMVA.PDF) (t : TH1) (x : ℚ) (hp : p.fPDFHist = some t) :
    p.GetVal x = .ok (max (retval t p.fNbinsPDFHist x) PDF_epsilon_, p.sanitized) := by
  obtain ⟨ns, sp, tb, hh, g, fi, a, b, n, o⟩ := p
  simp only at hp
  subst hp
  rfl

/-- The state of the loop of `GetIntegral` after `k` iterations. -/
theorem GetIntegral_loop (p : TMVA.PDF) (t : TH1) (xmin intBin : ℚ)
    (hp : p.fPDFHist = some t) (k : ℕ) :
    forLoopM k (fun bini (s : ℚ × TMVA.PDF) =>
        let x := ((bini : ℚ) + 1 / 2) * intBin + xmin
        match s.2.GetVal x with
        | .error e => .error e
        | .ok r => .ok (s.1 + r.1, r.2)) ((0 : ℚ), p) =
      (.ok (∑ i in Finset.range k,
          max (retval t p.fNbinsPDFHist (((i : ℚ) + 1 / 2) * intBin + xmin)) PDF_epsilon_,
        if k = 0 then p else p.sanitized) : Except Fault (ℚ × TMVA.PDF)) := by
  induction k with
  | zero => simp [forLoopM_zero]
  | succ k ih =>
    rw [forLoopM_succ, ih]
    have hq : (if k = 0 then p else p.sanitized).fPDFHist = some t := by
      split
      · exact hp
      · rw [sanitized_fPDFHist]; exact hp
    have hn : (if k = 0 then p else p.sanitized).fNbinsPDFHist = p.fNbinsPDFHist := by
      split
      · rfl
      · rw [sanitized_fNbinsPDFHist]
    have hs : (if k = 0 then p else p.sanitized).sanitized = p.sanitized := by
      split
      · rfl
      · rw [sanitized_idem]
    simp only [GetVal_eq _ t _ hq, hn, hs, Finset.sum_range_succ]
    simp

/-- The result of `GetIntegral` on an object that holds a dense table. -/
theorem GetIntegral_eq (p : TMVA.PDF) (t : TH1) (xmin xmax : ℚ) (hp : p.fPDFHist = some t) :
    p.GetIntegral xmin xmax =
      .ok ((∑ i in Finset.range 10000,
          max (retval t p.fNbinsPDFHist
            (((i : ℚ) + 1 / 2) * ((xmax - xmin) / 10000) + xmin)) PDF_epsilon_)
          * ((xmax - xmin) / 10000), p.sanitized) := by
  unfold GetIntegral
  have h1 : ((10000 : ℤ) : ℚ) = 10000 := by norm_num
  have h2 : (10000 : ℤ).toNat = 10000 := rfl
  simp only [h1, h2]
  rw [GetIntegral_loop p t xmin ((xmax - xmin) / 10000) hp 10000]
  simp

end PDF

/-! ## Histogram cells -/

namespace TH1

theorem getD_setD (a : Array ℚ) (i j : ℕ) (v : ℚ) :
    (a.setD i v).getD j 0 = if i = j ∧ i < a.size then v else a.getD j 0 := by
  simp only [Array.getD_eq_get?]
  by_cases hi : i < a.size
  · by_cases hij : i = j
    · subst hij
      simp [hi, Array.getElem?_setD_eq]
    · have h1 : (a.setD i v)[j]? = a[j]? := by
        simp only [Array.setD, hi, dite_true]
        exact Array.getElem?_set_ne a ⟨i, hi⟩ v hij
      simp [hij, h1]
  · have h1 : a.setD i v = a := by
      simp [Array.setD, hi]
    simp [hi, h1]

theorem getD_map_mul (a : Array ℚ) (c : ℚ) (j : ℕ) :
    (a.map (fun v => c * v)).getD j 0 = c * a.getD j 0 := by
  simp only [Array.getD_eq_get?, Array.getElem?_map]
  cases a[j]? <;> simp

theorem Scale_GetBinContent (t : TH1) (c : ℚ) (bin : ℤ) :
    (t.Scale c).GetBinContent bin = c * t.GetBinContent bin := by
  simp only [GetBinContent, Scale, cell]
  exact getD_map_mul _ _ _

theorem Scale_one (t : TH1) : t.Scale 1 = t := by
  obtain ⟨n, a, b, arr⟩ := t
  simp only [Scale, one_mul]
  congr 1
  apply Array.ext
  · simp
  · intro i h1 h2
    simp

theorem cell_of_mem (t : TH1) (bin : ℤ) (h1 : 0 ≤ bin) (h2 : bin ≤ t.fNbins + 1) :
    t.cell bin = bin := by
  unfold cell
  rw [if_neg (by omega), if_neg (by omega)]

end TH1

/-! ## The dense table -/

namespace PDF

/-- The histogram after `k` iterations of the loop of `FillSplineToHist`: the axis is the one
the table was created with, and the bins `1..k` hold their final values. -/
theorem fill_loop (n : ℤ) (a b : ℚ) (spline : ℚ → ℚ) (hist : TH1) (k : ℕ) (hk : (k : ℤ) ≤ n) :
    (forLoop k (fun k t =>
        let bin : ℤ := (k : ℤ) + 1
        let x := t.GetBinCenter bin
        t.SetBinContent bin (fillValue spline hist x)) (TH1.TH1D n a b)).fNbins = n ∧
    (forLoop k (fun k t =>
        let bin : ℤ := (k : ℤ) + 1
        let x := t.GetBinCenter bin
        t.SetBinContent bin (fillValue spline hist x)) (TH1.TH1D n a b)).fXmin = a ∧
    (forLoop k (fun k t =>
        let bin : ℤ := (k : ℤ) + 1
        let x := t.GetBinCenter bin
        t.SetBinContent bin (fillValue spline hist x)) (TH1.TH1D n a b)).fXmax = b ∧
    (forLoop k (fun k t =>
        let bin : ℤ := (k : ℤ) + 1
        let x := t.GetBinCenter bin
        t.SetBinContent bin (fillValue spline hist x)) (TH1.TH1D n a b)).fArray.size
      = (n + 2).toNat ∧
    ∀ j : ℕ, (forLoop k (fun k t =>
        let bin : ℤ := (k : ℤ) + 1
        let x := t.GetBinCenter bin
        t.SetBinContent bin (fillValue spline hist x)) (TH1.TH1D n a b)).fArray.getD j 0 =
      if 1 ≤ j ∧ j ≤ k then
        fillValue spline hist (a + ((j : ℚ) - 1) * ((b - a) / (n : ℚ)) + 1 / 2 * ((b - a) / (n : ℚ)))
      else 0 := by
  induction k with
  | zero =>
    simp only [forLoop_zero]
    refine ⟨rfl, rfl, rfl, ?_, ?_⟩
    · simp [TH1.TH1D]
    · intro j
      have hj : ¬ (1 ≤ j ∧ j ≤ 0) := by omega
      rw [if_neg hj]
      simp only [TH1.TH1D, Array.getD_eq_get?, Array.getElem?_mkArray]
      split <;> rfl
  | succ k ih =>
    have hk1 : (k : ℤ) ≤ n := by push_cast at hk; omega
    obtain ⟨e1, e2, e3, e4, e5⟩ := ih hk1
    rw [forLoop_succ]
    generalize forLoop k (fun k t =>
        let bin : ℤ := (k : ℤ) + 1
        let x := t.GetBinCenter bin
        t.SetBinContent bin (fillValue spline hist x)) (TH1.TH1D n a b) = T at e1 e2 e3 e4 e5 ⊢
    have hlt : ¬ ((k : ℤ) + 1 < 0) := by omega
    have hge : ¬ ((k : ℤ) + 1 ≥ T.fNbins + 2) := by rw [e1]; push_cast at hk; omega
    have hnat : ((k : ℤ) + 1).toNat = k + 1 := by omega
    simp only [TH1.SetBinContent, if_neg hlt, if_neg hge, hnat]
    refine ⟨e1, e2, e3, ?_, ?_⟩
    · rw [Array.size_setD, e4]
    · intro j
      rw [TH1.getD_setD, e5 j]
      have hsz : k + 1 < T.fArray.size := by rw [e4]; push_cast at hk; omega
      by_cases hj : k + 1 = j
      · subst hj
        rw [if_pos ⟨rfl, hsz⟩, if_pos (by omega)]
        simp only [TH1.GetBinCenter, e1, e2, e3]
        push_cast
        rfl
      · rw [if_neg (by tauto)]
        by_cases hjk : 1 ≤ j ∧ j ≤ k
        · rw [if_pos hjk, if_pos (by omega)]
        · rw [if_neg hjk, if_neg (by omega)]

theorem SetBinContent_axis (t : TH1) (bin : ℤ) (v : ℚ) :
    (t.SetBinContent bin v).fNbins = t.fNbins ∧ (t.SetBinContent bin v).fXmin = t.fXmin ∧
      (t.SetBinContent bin v).fXmax = t.fXmax := by
  unfold TH1.SetBinContent
  split
  · exact ⟨rfl, rfl, rfl⟩
  · split <;> exact ⟨rfl, rfl, rfl⟩

theorem denseTable_axis (n : ℤ) (a b : ℚ) (spline : ℚ → ℚ) (hist : TH1) :
    (denseTable n a b spline hist).fNbins = n ∧ (denseTable n a b spline hist).fXmin = a ∧
      (denseTable n a b spline hist).fXmax = b := by
  unfold denseTable
  induction n.toNat with
  | zero =>
    rw [forLoop_zero]
    exact ⟨rfl, rfl, rfl⟩
  | succ k ih =>
    rw [forLoop_succ]
    obtain ⟨e1, e2, e3⟩ := ih
    obtain ⟨f1, f2, f3⟩ := SetBinContent_axis
      (forLoop k (fun k t =>
        let bin : ℤ := (k : ℤ) + 1
        let x := t.GetBinCenter bin
        t.SetBinContent bin (fillValue spline hist x)) (TH1.TH1D n a b))
      ((k : ℤ) + 1)
      (fillValue spline hist ((forLoop k (fun k t =>
        let bin : ℤ := (k : ℤ) + 1
        let x := t.GetBinCenter bin
        t.SetBinContent bin (fillValue spline hist x)) (TH1.TH1D n a b)).GetBinCenter
          ((k : ℤ) + 1)))
    exact ⟨f1.trans e1, f2.trans e2, f3.trans e3⟩

theorem denseTable_fNbins (n : ℤ) (a b : ℚ) (spline : ℚ → ℚ) (hist : TH1) :
    (denseTable n a b spline hist).fNbins = n :=
  (denseTable_axis n a b spline hist).1

theorem denseTable_fXmin (n : ℤ) (a b : ℚ) (spline : ℚ → ℚ) (hist : TH1) :
    (denseTable n a b spline hist).fXmin = a :=
  (denseTable_axis n a b spline hist).2.1

theorem denseTable_fXmax (n : ℤ) (a b : ℚ) (spline : ℚ → ℚ) (hist : TH1) :
    (denseTable n a b spline hist).fXmax = b :=
  (denseTable_axis n a b spline hist).2.2

/-- The content of bin `i` of the table built by the loop of `FillSplineToHist`. -/
theorem denseTable_GetBinContent (n : ℤ) (a b : ℚ) (spline : ℚ → ℚ) (hist : TH1) (i : ℤ)
    (h1 : 1 ≤ i) (h2 : i ≤ n) :
    (denseTable n a b spline hist).GetBinContent i =
      fillValue spline hist (a + ((i : ℚ) - 1 / 2) * (b - a) / (n : ℚ)) := by
  obtain ⟨e1, -, -, -, e5⟩ := fill_loop n a b spline hist n.toNat (by omega)
  unfold TH1.GetBinContent
  rw [TH1.cell_of_mem _ _ (by omega) (by rw [denseTable_fNbins]; omega)]
  unfold denseTable
  rw [e5 i.toNat, if_pos (by omega)]
  have hi : ((i.toNat : ℕ) : ℚ) = (i : ℚ) := by
    have : ((i.toNat : ℕ) : ℤ) = i := by omega
    exact_mod_cast this
  rw [hi]
  congr 1
  ring

end PDF

/-! ## Construction -/

namespace PDF

/-- The result of `CheckHist` on an object that owns a histogram. -/
theorem CheckHist_eq (p : TMVA.PDF) (h : TH1) (hp : p.fHist = some h) :
    p.CheckHist =
      .ok { p with fXmin := h.fXmin, fXmax := h.fXmax, out := p.out ++ checkHistOut h } := by
  obtain ⟨ns, sp, tb, hh, g, fi, a, b, n, o⟩ := p
  simp only at hp
  subst hp
  simp only [CheckHist, checkHistOut, emptyBins, DEBUG_PDF, TH1.GetXmin, TH1.GetXmax,
    Bool.false_eq_true, if_false]
  split_ifs <;> simp

/-- The result of `FillSplineToHist` on an object that owns a histogram and a spline. -/
theorem FillSplineToHist_eq (p : TMVA.PDF) (hist : TH1) (spline : ℚ → ℚ)
    (h1 : p.fHist = some hist) (h2 : p.fSpline = some spline) :
    p.FillSplineToHist =
      .ok { p with
        fPDFHist := some (denseTable p.fNbinsPDFHist p.fXmin p.fXmax spline hist) } := by
  obtain ⟨ns, sp, tb, hh, g, fi, a, b, n, o⟩ := p
  simp only at h1 h2
  subst h1 h2
  rfl

theorem ok_bind {α β : Type} (a : α) (k : α → Except Fault β) :
    (Except.ok a >>= k) = k a := rfl

/-- The smoothing statement on an object that owns a histogram. -/
theorem smoothStep_eq (ext : Externals) (p : TMVA.PDF) (h : TH1) (hp : p.fHist = some h) :
    p.smoothStep ext =
      .ok { p with fHist := some (if p.fNsmooth > 0 then h.Smooth ext p.fNsmooth else h) } := by
  obtain ⟨ns, sp, tb, hh, g, fi, a, b, n, o⟩ := p
  simp only at hp
  subst hp
  unfold smoothStep
  by_cases hns : ns > 0
  · simp only [hns, if_true]
  · simp only [hns, if_false]

/-- The scaling statement on an object that holds a dense table. -/
theorem scaleStep_eq (p : TMVA.PDF) (t : TH1) (hp : p.fPDFHist = some t) :
    p.scaleStep = .ok { p with fPDFHist := some (t.Scale (1 / p.fIntegral)) } := by
  obtain ⟨ns, sp, tb, hh, g, fi, a, b, n, o⟩ := p
  simp only at hp
  subst hp
  rfl

/-- The result of `Integral` on an object that holds a dense table and a positive
`fIntegral`: the object is unchanged. -/
theorem Integral_state (p : TMVA.PDF) (t : TH1) (hp : p.fPDFHist = some t)
    (hi : 0 < p.fIntegral) : ∃ v, p.Integral = .ok (v, p) := by
  unfold Integral
  rw [GetIntegral_eq p t _ _ hp, sanitized_of_pos p hi]
  exact ⟨_, rfl⟩

/-- The last two statements of the constructor, `Integral()` and the scaling, on an object that
holds a dense table and `fIntegral = 1`: the object is unchanged. -/
theorem normalize_eq (p : TMVA.PDF) (t : TH1) (hp : p.fPDFHist = some t)
    (hi : p.fIntegral = 1) : (p.Integral >>= fun r => r.2.scaleStep) = .ok p := by
  obtain ⟨v, hv⟩ := Integral_state p t hp (by rw [hi]; norm_num)
  rw [hv, ok_bind]
  show p.scaleStep = _
  rw [scaleStep_eq p t hp]
  obtain ⟨ns, sp, tb, hh, g, fi, a, b, n, o⟩ := p
  simp only at hp hi
  subst hp hi
  simp only [one_div_one, TH1.Scale_one]

/-- The object the constructor builds from a present histogram. -/
theorem PDF_eq (ext : Externals) (hist : TH1) (method : SmoothMethod) (nsmooth : ℤ) :
    PDF.PDF ext (some hist) method nsmooth =
      .ok { fNsmooth := nsmooth,
            fSpline := some (selectSpline ext method (TGraph.TGraph hist)).1,
            fPDFHist := some (denseTable NBIN_PdfHist_ hist.fXmin hist.fXmax
              (selectSpline ext method (TGraph.TGraph hist)).1 (ownedHist ext hist nsmooth)),
            fHist := some (ownedHist ext hist nsmooth),
            fGraph := some (TGraph.TGraph hist),
            fIntegral := 1,
            fXmin := hist.fXmin,
            fXmax := hist.fXmax,
            fNbinsPDFHist := NBIN_PdfHist_,
            out := checkHistOut hist ++ (selectSpline ext method (TGraph.TGraph hist)).2 } := by
  unfold PDF.PDF
  simp only [init]
  rw [CheckHist_eq _ hist.Clone rfl, ok_bind]
  rw [smoothStep_eq ext _ hist.Clone rfl, ok_bind]
  rw [FillSplineToHist_eq _ _ _ rfl rfl, ok_bind]
  rw [normalize_eq _ _ rfl rfl]
  simp only [ownedHist, TH1.Clone, List.nil_append]

end PDF

/-! ## The example inputs -/

theorem TGraph_flatHist : TGraph.TGraph flatHist = { points := [(1 / 4, 2), (3 / 4, 2)] } := by
  simp [TGraph.TGraph, flatHist, TH1.GetNbinsX, TH1.GetBinCenter, TH1.GetBinContent, TH1.cell,
    List.range_succ]
  norm_num

theorem TGraph_peakHist :
    TGraph.TGraph peakHist = { points := [(1 / 2, 0), (3 / 2, 3), (5 / 2, 0)] } := by
  simp [TGraph.TGraph, peakHist, TH1.GetNbinsX, TH1.GetBinCenter, TH1.GetBinContent, TH1.cell,
    List.range_succ]
  norm_num

theorem linearEval_flat (x : ℚ) : linearEval { points := [(1 / 4, 2), (3 / 4, 2)] } x = 2 := by
  unfold linearEval
  by_cases h1 : (1 / 4 : ℚ) ≤ x <;> by_cases h2 : (3 / 4 : ℚ) ≤ x
  · have hf : ([(1 / 4, 2), (3 / 4, 2)] : List (ℚ × ℚ)).filter (fun pt => pt.1 ≤ x) =
        [(1 / 4, 2), (3 / 4, 2)] := by
      simp only [List.filter, h1, h2, decide_True]
    simp only [hf]
    norm_num
  · have hf : ([(1 / 4, 2), (3 / 4, 2)] : List (ℚ × ℚ)).filter (fun pt => pt.1 ≤ x) =
        [(1 / 4, 2)] := by
      simp only [List.filter, h1, h2, decide_True, decide_False]
    simp only [hf]
    norm_num
  · have hf : ([(1 / 4, 2), (3 / 4, 2)] : List (ℚ × ℚ)).filter (fun pt => pt.1 ≤ x) =
        [(3 / 4, 2)] := by
      simp only [List.filter, h1, h2, decide_True, decide_False]
    simp only [hf]
    norm_num
  · have hf : ([(1 / 4, 2), (3 / 4, 2)] : List (ℚ × ℚ)).filter (fun pt => pt.1 ≤ x) = [] := by
      simp only [List.filter, h1, h2, decide_False]
    simp only [hf]
    norm_num

namespace PDF

theorem retval_eq_chord (t : TH1) (n : ℤ) (x : ℚ) :
    retval t n x = chord t (locBin t n x) (nextBin t n x) x := rfl

theorem locBin_mem (t : TH1) (n : ℤ) (x : ℚ) (hn : 1 ≤ n) :
    1 ≤ locBin t n x ∧ locBin t n x ≤ n := by
  unfold locBin
  simp only []
  split_ifs <;> omega

theorem nextBin_mem (t : TH1) (n : ℤ) (x : ℚ) (hn : 2 ≤ n) :
    1 ≤ nextBin t n x ∧ nextBin t n x ≤ n := by
  have h := locBin_mem t n x (by omega)
  unfold nextBin
  simp only []
  split_ifs with hc
  · rcases hc with hc | hc <;> omega
  · have h1 : locBin t n x ≠ 1 := fun e => hc (Or.inr e)
    omega

/-- On a table whose bins all hold `c`, the interpolation returns `c`. -/
theorem retval_const (t : TH1) (n : ℤ) (x c : ℚ) (hn : 2 ≤ n)
    (ht : ∀ i : ℤ, 1 ≤ i → i ≤ n → t.GetBinContent i = c) : retval t n x = c := by
  have h1 := locBin_mem t n x (by omega)
  have h2 := nextBin_mem t n x hn
  rw [retval_eq_chord]
  unfold chord
  rw [ht _ h1.1 h1.2, ht _ h2.1 h2.2]
  simp

end PDF

/-! ## Normalisation -/

theorem selectSpline_flatHist :
    (PDF.selectSpline linearExt .kSpline1 (TGraph.TGraph flatHist)).1 = fun _ => 2 := by
  funext x
  show linearEval (TGraph.TGraph flatHist) x = 2
  rw [TGraph_flatHist]
  exact linearEval_flat x

/-- Every bin of the dense table built from `flatHist` holds `2`. -/
theorem flat_table (hist : TH1) (i : ℤ) (h1 : 1 ≤ i) (h2 : i ≤ NBIN_PdfHist_) :
    (PDF.denseTable NBIN_PdfHist_ flatHist.fXmin flatHist.fXmax
      (PDF.selectSpline linearExt .kSpline1 (TGraph.TGraph flatHist)).1 hist).GetBinContent i
      = 2 := by
  rw [PDF.denseTable_GetBinContent _ _ _ _ _ _ h1 h2, selectSpline_flatHist]
  norm_num [PDF.fillValue, PDF_epsilon_]

/-- The integral of an object whose table holds `c >= PDF_epsilon_` in every bin. -/
theorem GetIntegral_const (p : PDF) (t : TH1) (a b c : ℚ) (hp : p.fPDFHist = some t)
    (hn : 2 ≤ p.fNbinsPDFHist) (hc : PDF_epsilon_ ≤ c)
    (ht : ∀ i : ℤ, 1 ≤ i → i ≤ p.fNbinsPDFHist → t.GetBinContent i = c) :
    returned (p.GetIntegral a b) = some (c * (b - a)) := by
  rw [PDF.GetIntegral_eq p t a b hp]
  simp only [returned, PDF.retval_const t _ _ c hn ht, max_eq_left hc, Finset.sum_const,
    Finset.card_range, nsmul_eq_mul]
  congr 1
  push_cast
  ring

/-- C1 (code bug): the constructor calls `Integral()` and drops the result, so `fIntegral`
keeps its initial `1.0` and `Scale(1.0/fIntegral)` changes nothing. For the two-bin histogram
over `[0, 1]` holding `2` in both bins (piecewise-linear spline, no smoothing), the integral
of the constructed PDF over `[xmin, xmax]` is `2`, not within `1e-3` of `1`. -/
theorem C1_integral_not_normalized :
    (match PDF.PDF linearExt (some flatHist) .kSpline1 0 with
      | .ok p => returned (p.GetIntegral p.fXmin p.fXmax) = some 2
      | .error _ => False) ∧ ¬ (|(2 : ℚ) - 1| ≤ 1 / 1000) := by
  refine ⟨?_, by norm_num⟩
  rw [PDF.PDF_eq]
  simp only []
  rw [GetIntegral_const _ _ _ _ 2 rfl (by norm_num [NBIN_PdfHist_]) (by norm_num [PDF_epsilon_])
    (fun i h1 h2 => flat_table _ i h1 h2)]
  norm_num [flatHist]

/-- C2 (code bug): for every input the constructor leaves `fIntegral = 1` and the dense table
exactly as `FillSplineToHist` wrote it; for the two-bin histogram over `[0, 1]` holding `2` in
both bins the numeric integral of that table is `2` (not the stored `1`), and bin `1` of the
final table holds `2` (not `2 / 2`). -/
theorem C2_integral_not_stored :
    (∀ (ext : Externals) (hist : TH1) (method : SmoothMethod) (nsmooth : ℤ),
      ∃ p, PDF.PDF ext (some hist) method nsmooth = .ok p ∧ p.fIntegral = 1 ∧
        p.fPDFHist = some (PDF.denseTable NBIN_PdfHist_ hist.fXmin hist.fXmax
          (PDF.selectSpline ext method (TGraph.TGraph hist)).1 (PDF.ownedHist ext hist nsmooth))) ∧
    (match PDF.PDF linearExt (some flatHist) .kSpline1 0 with
      | .ok p => p.fIntegral = 1 ∧ returned p.Integral = some 2 ∧
          (p.fPDFHist.map fun t => t.GetBinContent 1) = some 2
      | .error _ => False) := by
  refine ⟨fun ext hist method nsmooth => ⟨_, PDF.PDF_eq ext hist method nsmooth, rfl, rfl⟩, ?_⟩
  rw [PDF.PDF_eq]
  simp only [PDF.Integral]
  refine ⟨trivial, ?_, ?_⟩
  · rw [GetIntegral_const _ _ _ _ 2 rfl (by norm_num [NBIN_PdfHist_])
      (by norm_num [PDF_epsilon_]) (fun i h1 h2 => flat_table _ i h1 h2)]
    norm_num [flatHist]
  · simp only [Option.map_some']
    rw [flat_table _ 1 (by norm_num) (by norm_num [NBIN_PdfHist_])]

/-! ## Queries outside the axis range -/

namespace PDF

theorem denseTable_GetBinCenter (n : ℤ) (a b : ℚ) (spline : ℚ → ℚ) (hist : TH1) (i : ℤ) :
    (denseTable n a b spline hist).GetBinCenter i =
      a + ((i : ℚ) - 1) * ((b - a) / (n : ℚ)) + 1 / 2 * ((b - a) / (n : ℚ)) := by
  simp only [TH1.GetBinCenter, denseTable_fNbins, denseTable_fXmin, denseTable_fXmax]

end PDF

theorem meanSmooth_peak : meanSmooth 1 3 #[0, 0, 3, 0, 0] = #[0, 1, 1, 1, 0] := by
  simp [meanSmooth, Array.range, Nat.fold, flip]

theorem TGraph_smoothed_peakHist :
    (TGraph.TGraph (PDF.ownedHist linearExt peakHist 1)).points =
      [(1 / 2, 1), (3 / 2, 1), (5 / 2, 1)] := by
  have h : PDF.ownedHist linearExt peakHist 1 =
      { fNbins := 3, fXmin := 0, fXmax := 3, fArray := #[0, 1, 1, 1, 0] } := by
    simp only [PDF.ownedHist, TH1.Clone, TH1.Smooth, linearExt, peakHist]
    rw [if_pos (by norm_num), meanSmooth_peak]
  rw [h]
  simp [TGraph.TGraph, TH1.GetNbinsX, TH1.GetBinCenter, TH1.GetBinContent, TH1.cell,
    List.range_succ]
  norm_num

/-- C5 (code bug): for every input the constructor builds the graph, and from it the spline,
from the caller's histogram `hist`, while the smoothing was applied to the clone `fHist`. For
the three-bin histogram over `[0, 3]` holding `0, 3, 0` and one smoothing pass (three-point
mean), the control points are `(0.5, 0), (1.5, 3), (2.5, 0)`, those of the unsmoothed
histogram, while the smoothed clone holds `(0.5, 1), (1.5, 1), (2.5, 1)`. -/
theorem C5_spline_fitted_to_unsmoothed :
    (∀ (ext : Externals) (hist : TH1) (method : SmoothMethod) (nsmooth : ℤ),
      ∃ p, PDF.PDF ext (some hist) method nsmooth = .ok p ∧
        p.fGraph = some (TGraph.TGraph hist) ∧
        p.fSpline = some (PDF.selectSpline ext method (TGraph.TGraph hist)).1 ∧
        p.fHist = some (PDF.ownedHist ext hist nsmooth)) ∧
    (match PDF.PDF linearExt (some peakHist) .kSpline1 1 with
      | .ok p =>
        p.fGraph.map TGraph.points = some [(1 / 2, 0), (3 / 2, 3), (5 / 2, 0)] ∧
        p.fHist.map (fun h => (TGraph.TGraph h).points) =
          some [(1 / 2, 1), (3 / 2, 1), (5 / 2, 1)]
      | .error _ => False) := by
  refine ⟨fun ext hist method nsmooth =>
    ⟨_, PDF.PDF_eq ext hist method nsmooth, rfl, rfl, rfl⟩, ?_⟩
  rw [PDF.PDF_eq]
  simp only [Option.map_some']
  rw [TGraph_peakHist, TGraph_smoothed_peakHist]
  exact ⟨rfl, rfl⟩

/-! ## The values of the dense table -/

theorem fillValue_ge (spline : ℚ → ℚ) (hist : TH1) (x : ℚ) :
    PDF_epsilon_ ≤ PDF.fillValue spline hist x :=
  le_max_right _ _

/-- C6: for every PDF constructed from a present histogram, every bin `i` in `1..N` of the
final dense table (after `FillSplineToHist` and the `Scale(1.0/fIntegral)` of the constructor)
holds a value of at least `PDF_epsilon_ = 0.01`. -/
theorem C6_table_ge_epsilon (ext : Externals) (hist : TH1) (method : SmoothMethod)
    (nsmooth : ℤ) (i : ℤ) (h1 : 1 ≤ i) (h2 : i ≤ NBIN_PdfHist_) :
    ∃ p t, PDF.PDF ext (some hist) method nsmooth = .ok p ∧ p.fPDFHist = some t ∧
      p.fNbinsPDFHist = NBIN_PdfHist_ ∧ PDF_epsilon_ ≤ t.GetBinContent i := by
  refine ⟨_, _, PDF.PDF_eq ext hist method nsmooth, rfl, rfl, ?_⟩
  rw [PDF.denseTable_GetBinContent _ _ _ _ _ i h1 h2]
  exact fillValue_ge _ _ _

theorem C6_table_ge_epsilon_witness :
    ((1 : ℤ) ≤ 1 ∧ (1 : ℤ) ≤ NBIN_PdfHist_) ∧
    ∃ p t, PDF.PDF linearExt (some flatHist) .kSpline1 0 = .ok p ∧ p.fPDFHist = some t ∧
      p.fNbinsPDFHist = NBIN_PdfHist_ ∧ PDF_epsilon_ ≤ t.GetBinContent 1 :=
  ⟨⟨le_refl 1, by norm_num [NBIN_PdfHist_]⟩,
    C6_table_ge_epsilon linearExt flatHist .kSpline1 0 1 (le_refl 1)
      (by norm_num [NBIN_PdfHist_])⟩

/-! ## The midpoint sum -/

theorem returned_GetVal (p : PDF) (t : TH1) (x : ℚ) (hp : p.fPDFHist = some t) :
    returned (p.GetVal x) = some (max (PDF.retval t p.fNbinsPDFHist x) PDF_epsilon_) := by
  rw [PDF.GetVal_eq p t x hp]
  rfl

theorem returned_GetIntegral (p : PDF) (t : TH1) (a b : ℚ) (hp : p.fPDFHist = some t) :
    returned (p.GetIntegral a b) =
      some ((b - a) / 10000 * ∑ i in Finset.range 10000,
        max (PDF.retval t p.fNbinsPDFHist (a + ((i : ℚ) + 1 / 2) * ((b - a) / 10000)))
          PDF_epsilon_) := by
  rw [PDF.GetIntegral_eq p t a b hp]
  have hsum : (∑ i in Finset.range 10000,
      max (PDF.retval t p.fNbinsPDFHist (((i : ℚ) + 1 / 2) * ((b - a) / 10000) + a))
        PDF_epsilon_) =
      ∑ i in Finset.range 10000,
        max (PDF.retval t p.fNbinsPDFHist (a + ((i : ℚ) + 1 / 2) * ((b - a) / 10000)))
          PDF_epsilon_ :=
    Finset.sum_congr rfl (fun i _ => by rw [add_comm])
  rw [hsum, mul_comm]
  rfl

/-- C8: on every object that holds a dense table, and for all `a` and `b`, every `GetVal`
call at a step midpoint returns a value, `GetIntegral(a, b)` returns
`h * sum over i in 0..9999 of GetVal(a + (i + 1/2) h)` with `h = (b - a)/10000`, and
`Integral()` is `GetIntegral(fXmin, fXmax)`. -/
theorem C8_GetIntegral_midpoint_sum (p : PDF) (t : TH1) (a b : ℚ)
    (hp : p.fPDFHist = some t) :
    ∃ v : ℕ → ℚ,
      (∀ i : ℕ, returned (p.GetVal (a + ((i : ℚ) + 1 / 2) * ((b - a) / 10000))) = some (v i)) ∧
      returned (p.GetIntegral a b) =
        some ((b - a) / 10000 * ∑ i in Finset.range 10000, v i) ∧
      p.Integral = p.GetIntegral p.fXmin p.fXmax :=
  ⟨fun i => max (PDF.retval t p.fNbinsPDFHist (a + ((i : ℚ) + 1 / 2) * ((b - a) / 10000)))
      PDF_epsilon_,
    fun _ => returned_GetVal p t _ hp, returned_GetIntegral p t a b hp, rfl⟩

theorem C8_GetIntegral_midpoint_sum_witness :
    smallPDF.fPDFHist = some smallTable ∧
    ∃ v : ℕ → ℚ,
      (∀ i : ℕ, returned (smallPDF.GetVal (0 + ((i : ℚ) + 1 / 2) * ((1 - 0) / 10000))) =
        some (v i)) ∧
      returned (smallPDF.GetIntegral 0 1) =
        some ((1 - 0) / 10000 * ∑ i in Finset.range 10000, v i) ∧
      smallPDF.Integral = smallPDF.GetIntegral smallPDF.fXmin smallPDF.fXmax :=
  ⟨rfl, C8_GetIntegral_midpoint_sum smallPDF smallTable 0 1 rfl⟩

/-! ## Method fallback and the missing histogram -/

/-- C9: constructing with a method value that is none of the four enumerators yields the same
fitted spline, the same dense table and the same normalization constant as constructing from
the same histogram and smoothing count with `kSpline3`; only the warning line is added to
the output. -/
theorem C9_unrecognized_method_is_spline3 (ext : Externals) (hist : TH1) (nsmooth : ℤ)
    (v : ℤ) :
    ∃ p q, PDF.PDF ext (some hist) (.other v) nsmooth = .ok p ∧
      PDF.PDF ext (some hist) .kSpline3 nsmooth = .ok q ∧
      p.fSpline = q.fSpline ∧ p.fPDFHist = q.fPDFHist ∧ p.fIntegral = q.fIntegral ∧
      p.fHist = q.fHist ∧ p.fGraph = q.fGraph ∧ p.out = q.out ++ [Msg.noValidMethod] := by
  have hs : (PDF.selectSpline ext (.other v) (TGraph.TGraph hist)).1 =
      (PDF.selectSpline ext .kSpline3 (TGraph.TGraph hist)).1 := rfl
  refine ⟨_, _, PDF.PDF_eq ext hist (.other v) nsmooth, PDF.PDF_eq ext hist .kSpline3 nsmooth,
    ?_, ?_, rfl, rfl, rfl, ?_⟩
  · simp only [hs]
  · simp only [hs]
  · simp [PDF.selectSpline]

/-- C10: construction ends in a fault exactly when the histogram pointer is absent (the fault
is then `exit(1)` after the error line); from every present histogram it returns an
object. -/
theorem C10_construction_fails_iff_absent (ext : Externals) (hist : Option TH1)
    (method : SmoothMethod) (nsmooth : ℤ) :
    ((∃ f, PDF.PDF ext hist method nsmooth = .error f) ↔ hist = none) ∧
    PDF.PDF ext none method nsmooth = .error (.exit 1 .ctorNoHist) ∧
    ∀ h : TH1, ∃ p, PDF.PDF ext (some h) method nsmooth = .ok p := by
  refine ⟨?_, rfl, fun h => ⟨_, PDF.PDF_eq ext h method nsmooth⟩⟩
  constructor
  · rintro ⟨f, hf⟩
    cases hist with
    | none => rfl
    | some h =>
      rw [PDF.PDF_eq] at hf
      cases hf
  · intro h
    subst h
    exact ⟨_, rfl⟩

/-! ## Queries do not change a constructed object -/

/-- C11: on every object the constructor returns, `GetVal(x)` and `GetIntegral(a, b)` return
and leave the whole object, in particular the dense table and `fIntegral`, as it was, for all
arguments: `fIntegral` is `1`, so the statement `if (fIntegral <= 0.0) fIntegral = 1.0` does
not fire; the same holds again for the object after any such query, which is the same
object. -/
theorem C11_queries_leave_state_unchanged (ext : Externals) (hist : TH1)
    (method : SmoothMethod) (nsmooth : ℤ) (x a b : ℚ) :
    ∃ p, PDF.PDF ext (some hist) method nsmooth = .ok p ∧ 0 < p.fIntegral ∧
      (∃ v, p.GetVal x = .ok (v, p)) ∧ (∃ w, p.GetIntegral a b = .ok (w, p)) ∧
      (∃ w, p.Integral = .ok (w, p)) := by
  refine ⟨_, PDF.PDF_eq ext hist method nsmooth, by norm_num, ?_, ?_, ?_⟩
  · rw [PDF.GetVal_eq _ _ x rfl, PDF.sanitized_of_pos _ (by norm_num)]
    exact ⟨_, rfl⟩
  · rw [PDF.GetIntegral_eq _ _ a b rfl, PDF.sanitized_of_pos _ (by norm_num)]
    exact ⟨_, rfl⟩
  · exact PDF.Integral_state _ _ rfl (by norm_num)

/-! ## The neighbour bin -/

namespace PDF

end PDF

theorem roundHalfEven_intCast (z : ℤ) : roundHalfEven (z : ℚ) = z := by
  simp [roundHalfEven]

theorem roundHalfEven_le (q : ℚ) (k : ℤ) (h : q ≤ (k : ℚ)) : roundHalfEven q ≤ k := by
  have hf : ⌊q⌋ ≤ k := Int.floor_le_floor h |>.trans (by simp)
  have hfq : ((⌊q⌋ : ℤ) : ℚ) ≤ q := Int.floor_le q
  unfold roundHalfEven
  simp only []
  rcases lt_or_eq_of_le hf with hlt | heq
  · split_ifs <;> omega
  · have hq : q = (⌊q⌋ : ℚ) := le_antisymm (by rw [heq]; exact h) hfq
    have hr : q - (⌊q⌋ : ℚ) < 1 / 2 := by
      rw [← hq]
      norm_num
    rw [if_pos hr]
    exact hf

theorem lt_roundHalfEven (q : ℚ) (k : ℤ) (h : (k : ℚ) + 1 / 2 < q) : k < roundHalfEven q := by
  have hk : k ≤ ⌊q⌋ := Int.le_floor.mpr (by linarith)
  unfold roundHalfEven
  simp only []
  rcases lt_or_eq_of_le hk with hlt | heq
  · split_ifs <;> omega
  · have hr : ¬ (q - (⌊q⌋ : ℚ) < 1 / 2) := by
      rw [← heq]
      linarith
    have hr2 : 1 / 2 < q - (⌊q⌋ : ℚ) := by
      rw [← heq]
      linarith
    rw [if_neg hr, if_pos hr2]
    omega

theorem log_two_eq (q : ℚ) (e : ℤ) (h1 : (2 : ℚ) ^ e ≤ q) (h2 : q < (2 : ℚ) ^ (e + 1)) :
    Int.log 2 q = e := by
  have hq : 0 < q := lt_of_lt_of_le (by positivity) h1
  have a : e ≤ Int.log 2 q := by
    apply (Int.zpow_le_iff_le_log (by norm_num) hq).mp
    exact_mod_cast h1
  have b : Int.log 2 q < e + 1 := by
    apply (Int.lt_zpow_iff_log_lt (by norm_num) hq).mp
    exact_mod_cast h2
  omega

theorem toFloat_t_zero : toFloat_t 0 = 0 := by
  simp [toFloat_t]

/-- The conversion of a positive value whose binade is known. -/
theorem toFloat_t_of_binade (q : ℚ) (e : ℤ) (h1 : (2 : ℚ) ^ e ≤ q)
    (h2 : q < (2 : ℚ) ^ (e + 1)) :
    toFloat_t q = (roundHalfEven (q / 2 ^ (e - 23)) : ℚ) * 2 ^ (e - 23) := by
  have hq : 0 < q := lt_of_lt_of_le (by positivity) h1
  unfold toFloat_t
  rw [if_neg (ne_of_gt hq)]
  simp only [abs_of_pos hq, log_two_eq q e h1 h2, if_neg (not_lt.mpr (le_of_lt hq)), one_mul]

theorem two_zpow_succ (e : ℤ) : (2 : ℚ) ^ (e + 1) = 16777216 * 2 ^ (e - 23) := by
  rw [show e + 1 = 24 + (e - 23) by ring, zpow_add₀ (by norm_num)]
  norm_num

theorem two_zpow_self (e : ℤ) : (2 : ℚ) ^ e = 8388608 * 2 ^ (e - 23) := by
  rw [show e = 23 + (e - 23) by ring, zpow_add₀ (by norm_num)]
  norm_num

/-- Integers of magnitude up to `2^24` are converted exactly. -/
theorem toFloat_t_intCast (m : ℤ) (h1 : 0 < m) (h2 : m ≤ 16777216) :
    toFloat_t (m : ℚ) = (m : ℚ) := by
  have hq : (0 : ℚ) < (m : ℚ) := by exact_mod_cast h1
  have b1 := Int.zpow_log_le_self (b := 2) (r := (m : ℚ)) (by norm_num) hq
  have b2 := Int.lt_zpow_succ_log_self (b := 2) (by norm_num) (m : ℚ)
  simp only [Nat.cast_ofNat] at b1 b2
  generalize Int.log 2 (m : ℚ) = e at b1 b2
  rw [toFloat_t_of_binade _ e b1 b2]
  have he0 : 0 ≤ e := by
    by_contra hneg
    have h3 : (2 : ℚ) ^ (e + 1) ≤ 2 ^ (0 : ℤ) := zpow_le_zpow_right₀ (by norm_num) (by omega)
    have h4 : (1 : ℚ) ≤ (m : ℚ) := by exact_mod_cast h1
    simp only [zpow_zero] at h3
    linarith
  have he24 : e ≤ 24 := by
    by_contra hbig
    have h3 : (2 : ℚ) ^ (25 : ℤ) ≤ 2 ^ e := zpow_le_zpow_right₀ (by norm_num) (by omega)
    have h4 : (m : ℚ) ≤ 16777216 := by exact_mod_cast h2
    norm_num at h3
    linarith
  by_cases he : e ≤ 23
  · have hk : e - 23 = -((23 - e).toNat : ℤ) := by omega
    rw [hk, zpow_neg, zpow_natCast, div_inv_eq_mul]
    have hc : (m : ℚ) * 2 ^ (23 - e).toNat = ((m * 2 ^ (23 - e).toNat : ℤ) : ℚ) := by
      push_cast
      ring
    rw [hc, roundHalfEven_intCast]
    push_cast
    field_simp
  · have he' : e = 24 := by omega
    subst he'
    norm_num at b1
    have hm : (m : ℚ) = 16777216 := le_antisymm (by exact_mod_cast h2) b1
    rw [hm]
    have hc : (16777216 : ℚ) / 2 ^ ((24 : ℤ) - 23) = ((8388608 : ℤ) : ℚ) := by norm_num
    rw [hc, roundHalfEven_intCast]
    norm_num

/-- The single-precision quotient of a count `c` and a bin number `n <= 2^24` exceeds `0.5`
exactly when `c` exceeds `n / 2`. -/
theorem toFloat_t_ratio_gt_half (c n : ℤ) (hc0 : 0 ≤ c) (hcn : c ≤ n) (hn0 : 0 < n)
    (hn : n ≤ 16777216) :
    toFloat_t ((c : ℚ) / (n : ℚ)) > 1 / 2 ↔ (n : ℚ) / 2 < (c : ℚ) := by
  have hN : (0 : ℚ) < (n : ℚ) := by exact_mod_cast hn0
  have hNle : (n : ℚ) ≤ 16777216 := by exact_mod_cast hn
  have hC : (0 : ℚ) ≤ (c : ℚ) := by exact_mod_cast hc0
  have hCN : (c : ℚ) ≤ (n : ℚ) := by exact_mod_cast hcn
  constructor
  · intro hgt
    by_contra hle
    have hle' : (c : ℚ) / (n : ℚ) ≤ 1 / 2 := by
      rw [div_le_iff₀ hN]
      linarith
    have hbound : toFloat_t ((c : ℚ) / (n : ℚ)) ≤ 1 / 2 := by
      rcases eq_or_lt_of_le (div_nonneg hC (le_of_lt hN)) with h0 | hpos
      · rw [← h0, toFloat_t_zero]
        norm_num
      · rcases eq_or_lt_of_le hle' with heq | hlt
        · rw [heq, toFloat_t_of_binade (1 / 2) (-1) (by norm_num) (by norm_num)]
          have hc : (1 / 2 : ℚ) / 2 ^ ((-1 : ℤ) - 23) = ((8388608 : ℤ) : ℚ) := by norm_num
          rw [hc, roundHalfEven_intCast]
          norm_num
        · have b1 := Int.zpow_log_le_self (b := 2) (r := (c : ℚ) / (n : ℚ)) (by norm_num) hpos
          have b2 := Int.lt_zpow_succ_log_self (b := 2) (by norm_num) ((c : ℚ) / (n : ℚ))
          simp only [Nat.cast_ofNat] at b1 b2
          generalize Int.log 2 ((c : ℚ) / (n : ℚ)) = e at b1 b2
          generalize (c : ℚ) / (n : ℚ) = q at b1 b2 hlt hpos ⊢
          have he : e ≤ -2 := by
            by_contra hbig
            have h3 : (2 : ℚ) ^ (-1 : ℤ) ≤ 2 ^ e := zpow_le_zpow_right₀ (by norm_num) (by omega)
            norm_num at h3
            linarith
          have hu : (0 : ℚ) < 2 ^ (e - 23) := by positivity
          rw [toFloat_t_of_binade q e b1 b2]
          have hy : q / 2 ^ (e - 23) ≤ ((16777216 : ℤ) : ℚ) := by
            rw [div_le_iff₀ hu]
            push_cast
            rw [← two_zpow_succ]
            exact le_of_lt b2
          have hr := roundHalfEven_le _ _ hy
          have hr' : (roundHalfEven (q / 2 ^ (e - 23)) : ℚ) ≤ 16777216 := by exact_mod_cast hr
          have h5 : (roundHalfEven (q / 2 ^ (e - 23)) : ℚ) * 2 ^ (e - 23) ≤
              16777216 * 2 ^ (e - 23) := mul_le_mul_of_nonneg_right hr' (le_of_lt hu)
          rw [← two_zpow_succ] at h5
          have h6 : (2 : ℚ) ^ (e + 1) ≤ 2 ^ (-1 : ℤ) :=
            zpow_le_zpow_right₀ (by norm_num) (by omega)
          norm_num at h6
          linarith
    linarith
  · intro hgt
    rcases eq_or_lt_of_le hcn with heq | hlt
    · have h1 : (c : ℚ) / (n : ℚ) = ((1 : ℤ) : ℚ) := by
        rw [heq]
        push_cast
        exact div_self (ne_of_gt hN)
      rw [h1, toFloat_t_intCast 1 (by norm_num) (by norm_num)]
      norm_num
    · have hlt' : (c : ℚ) < (n : ℚ) := by exact_mod_cast hlt
      have hq1 : (2 : ℚ) ^ (-1 : ℤ) ≤ (c : ℚ) / (n : ℚ) := by
        rw [le_div_iff₀ hN]
        norm_num
        linarith
      have hq2 : (c : ℚ) / (n : ℚ) < (2 : ℚ) ^ ((-1 : ℤ) + 1) := by
        rw [div_lt_iff₀ hN]
        norm_num
        exact_mod_cast hlt
      rw [toFloat_t_of_binade _ (-1) hq1 hq2]
      have hint : 2 * c - n ≥ 1 := by
        have : (n : ℚ) < 2 * (c : ℚ) := by linarith
        have : n < 2 * c := by exact_mod_cast this
        omega
      have hkey : n < 16777216 * (2 * c - n) := by
        rcases eq_or_lt_of_le hint with h1 | h2
        · have : n ≠ 16777216 := by omega
          omega
        · nlinarith
      have hkeyq : (n : ℚ) < 16777216 * (2 * (c : ℚ) - (n : ℚ)) := by exact_mod_cast hkey
      have hy : ((8388608 : ℤ) : ℚ) + 1 / 2 < (c : ℚ) / (n : ℚ) / 2 ^ ((-1 : ℤ) - 23) := by
        rw [lt_div_iff₀ (by positivity), lt_div_iff₀ hN]
        norm_num
        linarith
      have hr := lt_roundHalfEven _ _ hy
      have hr' : (8388609 : ℚ) ≤ (roundHalfEven ((c : ℚ) / (n : ℚ) / 2 ^ ((-1 : ℤ) - 23)) : ℚ) := by
        exact_mod_cast hr
      have h5 : (8388609 : ℚ) * 2 ^ ((-1 : ℤ) - 23) ≤
          (roundHalfEven ((c : ℚ) / (n : ℚ) / 2 ^ ((-1 : ℤ) - 23)) : ℚ) * 2 ^ ((-1 : ℤ) - 23) :=
        mul_le_mul_of_nonneg_right hr' (by positivity)
      have h6 : (1 / 2 : ℚ) < 8388609 * 2 ^ ((-1 : ℤ) - 23) := by norm_num
      linarith

/-! ## The empty-bins warning -/

/-- The counter of the loop of `CheckHist` is the number of bins holding exactly `0`. -/
theorem emptyBins_eq_zeroBins (h : TH1) : PDF.emptyBins h = (zeroBins h : ℤ) := by
  unfold PDF.emptyBins zeroBins
  induction h.GetNbinsX.toNat with
  | zero =>
    rw [forLoop_zero]
    rfl
  | succ k ih =>
    rw [forLoop_succ, ih, List.range_succ, List.filter_append, List.length_append]
    by_cases hc : h.GetBinContent ((k : ℤ) + 1) = 0
    · simp [hc]
    · simp [hc]

theorem zeroBins_le (h : TH1) : (zeroBins h : ℤ) ≤ h.GetNbinsX.toNat := by
  unfold zeroBins
  have h1 := List.length_filter_le
    (fun (k : ℕ) => decide (h.GetBinContent ((k : ℤ) + 1) = 0)) (List.range h.GetNbinsX.toNat)
  rw [List.length_range] at h1
  exact_mod_cast h1

/-- The number of `k < n` with `k < m`. -/
theorem length_filter_lt_range (m n : ℕ) :
    ((List.range n).filter (fun k => decide (k < m))).length = min m n := by
  induction n with
  | zero => simp
  | succ n ih =>
    rw [List.range_succ, List.filter_append, List.length_append, ih]
    by_cases h : n < m
    · simp [h]
      omega
    · simp [h]
      omega

theorem bigHist_content (k : ℕ) (hk : k < 16777219) :
    bigHist.GetBinContent ((k : ℤ) + 1) = if k < 8388610 then 0 else 1 := by
  have hcell : bigHist.cell ((k : ℤ) + 1) = (k : ℤ) + 1 :=
    TH1.cell_of_mem _ _ (by omega) (by simp only [bigHist]; omega)
  have hnat : ((k : ℤ) + 1).toNat = k + 1 := by omega
  unfold TH1.GetBinContent
  rw [hcell, hnat, Array.getD_eq_get?]
  simp only [bigHist]
  rw [Array.getElem?_append_left (by simp; omega)]
  by_cases h : k < 8388610
  · rw [if_pos h, Array.getElem?_append_left (by simp; omega), Array.getElem?_mkArray,
      if_pos (by omega)]
    rfl
  · rw [if_neg h, Array.getElem?_append_right (by simp; omega), Array.getElem?_mkArray,
      if_pos (by simp; omega)]
    rfl

theorem zeroBins_bigHist : zeroBins bigHist = 8388610 := by
  unfold zeroBins
  have hn : bigHist.GetNbinsX.toNat = 16777219 := rfl
  rw [hn]
  have hc : (List.range 16777219).filter
      (fun (k : ℕ) => decide (bigHist.GetBinContent ((k : ℤ) + 1) = 0)) =
      (List.range 16777219).filter (fun k => decide (k < 8388610)) := by
    apply List.filter_congr
    intro k hk
    rw [bigHist_content k (List.mem_range.mp hk)]
    by_cases h : k < 8388610
    · simp [h]
    · simp [h]
  rw [hc, length_filter_lt_range]
  norm_num

theorem toFloat_t_16777219 : toFloat_t 16777219 = 16777220 := by
  rw [toFloat_t_of_binade 16777219 24 (by norm_num) (by norm_num)]
  have hf : ⌊(16777219 : ℚ) / 2 ^ ((24 : ℤ) - 23)⌋ = 8388609 := by
    rw [Int.floor_eq_iff]
    norm_num
  have hr : roundHalfEven ((16777219 : ℚ) / 2 ^ ((24 : ℤ) - 23)) = 8388610 := by
    unfold roundHalfEven
    simp only [hf]
    norm_num
  rw [hr]
  norm_num

theorem checkHistOut_bigHist : PDF.checkHistOut bigHist = [] := by
  unfold PDF.checkHistOut
  have h1 : ((PDF.emptyBins bigHist : ℤ) : ℚ) = ((8388610 : ℤ) : ℚ) := by
    rw [emptyBins_eq_zeroBins, zeroBins_bigHist]
    norm_num
  have h2 : ((bigHist.GetNbinsX : ℤ) : ℚ) = 16777219 := by
    simp [TH1.GetNbinsX, bigHist]
  have h3 : toFloat_t ((8388610 : ℤ) : ℚ) = 8388610 := by
    rw [toFloat_t_intCast 8388610 (by norm_num) (by norm_num)]
    norm_num
  have h4 : toFloat_t ((8388610 : ℚ) / 16777220) = 1 / 2 := by
    have e : (8388610 : ℚ) / 16777220 = 1 / 2 := by norm_num
    rw [e, toFloat_t_of_binade (1 / 2) (-1) (by norm_num) (by norm_num)]
    have hc : (1 / 2 : ℚ) / 2 ^ ((-1 : ℤ) - 23) = ((8388608 : ℤ) : ℚ) := by norm_num
    rw [hc, roundHalfEven_intCast]
    norm_num
  rw [h1, h2, h3, toFloat_t_16777219, h4]
  norm_num

/-- C14 (counterexample): the histogram `bigHist` has `nbins = 16777219 > 0` bins, of which
`8388610`, more than `nbins / 2`, hold exactly `0`; the conversion `(Float_t)nbins` is
`16777220`, the single-precision quotient is exactly `0.5`, and `CheckHist` stores the axis
limits and prints nothing. -/
theorem C14_counterexample :
    0 < bigHist.GetNbinsX ∧ (bigHist.GetNbinsX : ℚ) / 2 < (zeroBins bigHist : ℚ) ∧
      bigPDF.CheckHist =
        .ok { bigPDF with fXmin := bigHist.GetXmin, fXmax := bigHist.GetXmax } := by
  refine ⟨by norm_num [TH1.GetNbinsX, bigHist], ?_, ?_⟩
  · rw [zeroBins_bigHist]
    norm_num [TH1.GetNbinsX, bigHist]
  · rw [PDF.CheckHist_eq bigPDF bigHist rfl, checkHistOut_bigHist, List.append_nil]
    rfl

/-- C14 (amended): on an object that owns a histogram with `0 < nbins <= 2^24 = 16777216`
(where the conversions to `Float_t` are exact), `CheckHist` returns, and it prints the
empty-bins warning (a percentage line followed by the range line) exactly when the number of
bins `1..nbins` holding exactly `0` is greater than `nbins / 2`; either way it stores the axis
limits in `fXmin` and `fXmax` and changes nothing else but the output, and the constructor
builds the same object up to that output. -/
theorem C14_CheckHist_warning (p : PDF) (h : TH1) (hp : p.fHist = some h)
    (hn : 0 < h.GetNbinsX) (hn24 : h.GetNbinsX ≤ 16777216) :
    ∃ w : List Msg,
      p.CheckHist =
        .ok { p with fXmin := h.GetXmin, fXmax := h.GetXmax, out := p.out ++ w } ∧
      ((h.GetNbinsX : ℚ) / 2 < (zeroBins h : ℚ) →
        ∃ percent, w = [Msg.emptyBins percent, Msg.range h.GetXmin h.GetXmax]) ∧
      (¬ ((h.GetNbinsX : ℚ) / 2 < (zeroBins h : ℚ)) → w = []) ∧
      ∀ (ext : Externals) (method : SmoothMethod) (nsmooth : ℤ),
        PDF.PDF ext (some h) method nsmooth =
          .ok { fNsmooth := nsmooth,
                fSpline := some (PDF.selectSpline ext method (TGraph.TGraph h)).1,
                fPDFHist := some (PDF.denseTable NBIN_PdfHist_ h.fXmin h.fXmax
                  (PDF.selectSpline ext method (TGraph.TGraph h)).1
                  (PDF.ownedHist ext h nsmooth)),
                fHist := some (PDF.ownedHist ext h nsmooth),
                fGraph := some (TGraph.TGraph h),
                fIntegral := 1,
                fXmin := h.fXmin,
                fXmax := h.fXmax,
                fNbinsPDFHist := NBIN_PdfHist_,
                out := w ++ (PDF.selectSpline ext method (TGraph.TGraph h)).2 } := by
  have hz0 : (0 : ℤ) ≤ (zeroBins h : ℤ) := Int.natCast_nonneg _
  have hzn : (zeroBins h : ℤ) ≤ h.GetNbinsX := by
    have := zeroBins_le h
    omega
  have hexn : toFloat_t ((h.GetNbinsX : ℤ) : ℚ) = ((h.GetNbinsX : ℤ) : ℚ) :=
    toFloat_t_intCast _ hn hn24
  have hexc : toFloat_t (((zeroBins h : ℤ) : ℤ) : ℚ) = (((zeroBins h : ℤ) : ℤ) : ℚ) := by
    rcases eq_or_lt_of_le hz0 with h0 | hpos
    · rw [← h0]
      simp [toFloat_t_zero]
    · exact toFloat_t_intCast _ hpos (by omega)
  have hiff : (toFloat_t (toFloat_t ((PDF.emptyBins h : ℤ) : ℚ) /
        toFloat_t ((h.GetNbinsX : ℤ) : ℚ)) > 1 / 2) ↔
      (h.GetNbinsX : ℚ) / 2 < (zeroBins h : ℚ) := by
    rw [emptyBins_eq_zeroBins, hexn, hexc,
      toFloat_t_ratio_gt_half (zeroBins h : ℤ) h.GetNbinsX hz0 hzn hn hn24]
    norm_num
  refine ⟨PDF.checkHistOut h, PDF.CheckHist_eq p h hp, ?_, ?_,
    fun ext method nsmooth => PDF.PDF_eq ext h method nsmooth⟩
  · intro hw
    unfold PDF.checkHistOut
    rw [if_pos (hiff.mpr hw)]
    exact ⟨_, rfl⟩
  · intro hw
    unfold PDF.checkHistOut
    rw [if_neg (fun hc => hw (hiff.mp hc))]

theorem C14_CheckHist_warning_witness :
    (fillPDF.fHist = some flatHist ∧ 0 < flatHist.GetNbinsX ∧
      flatHist.GetNbinsX ≤ 16777216) ∧
    ∃ w : List Msg,
      fillPDF.CheckHist =
        .ok { fillPDF with fXmin := flatHist.GetXmin, fXmax := flatHist.GetXmax,
                           out := fillPDF.out ++ w } ∧
      ((flatHist.GetNbinsX : ℚ) / 2 < (zeroBins flatHist : ℚ) →
        ∃ percent, w = [Msg.emptyBins percent, Msg.range flatHist.GetXmin flatHist.GetXmax]) ∧
      (¬ ((flatHist.GetNbinsX : ℚ) / 2 < (zeroBins flatHist : ℚ)) → w = []) :=
  ⟨⟨rfl, by norm_num [TH1.GetNbinsX, flatHist], by norm_num [TH1.GetNbinsX, flatHist]⟩,
    (C14_CheckHist_warning fillPDF flatHist rfl (by norm_num [TH1.GetNbinsX, flatHist])
      (by norm_num [TH1.GetNbinsX, flatHist])).imp
      (fun _ hw => ⟨hw.1, hw.2.1, hw.2.2.1⟩)⟩

end TMVA
